import Mathlib

/-!
Verification development for the schema-name canonicalization and pairwise
comparison engine of the `scratchpad` repository (files `normalizer.py`,
`graph_nodes.py`, `app.py`, `state.py`).

Strings are embedded as Lean `String` (logically `List Char`); Python's
`str.lower` is modelled on the ASCII range (identifiers in this codebase are
ASCII); Python `float` scores are modelled as rationals, since the only values
that arise are the exactly-representable 0.0 and 1.0; Python `dict`s are
modelled as insertion-ordered association lists where assignment overwrites an
existing key in place and appends a fresh key, matching CPython semantics.
Fallible operations (list indexing, dict key access) return `Option`.
-/

namespace Scratchpad

/-- ASCII model of Python `str.lower` on a single character: uppercase ASCII
letters map to lowercase, every other character is unchanged. -/
def toLowerChar (c : Char) : Char :=
  match c with
  | 'A' => 'a' | 'B' => 'b' | 'C' => 'c' | 'D' => 'd' | 'E' => 'e'
  | 'F' => 'f' | 'G' => 'g' | 'H' => 'h' | 'I' => 'i' | 'J' => 'j'
  | 'K' => 'k' | 'L' => 'l' | 'M' => 'm' | 'N' => 'n' | 'O' => 'o'
  | 'P' => 'p' | 'Q' => 'q' | 'R' => 'r' | 'S' => 's' | 'T' => 't'
  | 'U' => 'u' | 'V' => 'v' | 'W' => 'w' | 'X' => 'x' | 'Y' => 'y'
  | 'Z' => 'z'
  | c => c

/-- Python `s.lower()` over the character list of a string. -/
def lowerL (s : List Char) : List Char := s.map toLowerChar

/-- The delimiter class of `re.split(r'[_,-]', ...)` in `normalizer.py`. -/
def isDelim (c : Char) : Bool := c == '_' || c == ',' || c == '-'

/-- `re.split(r'[_,-]', s)`: split at every delimiter occurrence, keeping
empty segments (CPython `re.split` keeps them). -/
def splitDelims : List Char → List (List Char)
  | [] => [[]]
  | c :: t =>
    if isDelim c then [] :: splitDelims t
    else
      match splitDelims t with
      | [] => [[c]]
      | p :: ps => (c :: p) :: ps

/-- `isStartOf sub s` holds when `sub` is an initial segment of `s`. -/
def isStartOf : List Char → List Char → Bool
  | [], _ => true
  | _ :: _, [] => false
  | a :: as, b :: bs => a == b && isStartOf as bs

/-- Python substring test `sub in s`. -/
def containsSub (s sub : List Char) : Bool :=
  match s with
  | [] => isStartOf sub []
  | c :: t => isStartOf sub (c :: t) || containsSub t sub

/-- Python `s.replace(sub, "")`: remove every (left-to-right, non-overlapping)
occurrence of `sub` from `s`. -/
def replaceAll (sub : List Char) (s : List Char) : List Char :=
  match s with
  | [] => []
  | c :: t =>
    match sub with
    | [] => c :: t
    | _ :: _ =>
      if isStartOf sub (c :: t) then replaceAll sub (List.drop (sub.length - 1) t)
      else c :: replaceAll sub t
termination_by s.length
decreasing_by
  · simp only [List.length_drop, List.length_cons]
    omega
  · simp only [List.length_cons]
    omega

/-- `re.sub(r'[^a-z0-9]', '', s)`: keep only lowercase ASCII letters and
digits. -/
def cleanup (s : List Char) : List Char :=
  s.filter (fun c => decide (('a' ≤ c ∧ c ≤ 'z') ∨ ('0' ≤ c ∧ c ≤ '9')))

/-- Ordered-association-list lookup, Python `d[k]` / `k in d`. -/
def dictLookup {κ α : Type} [DecidableEq κ] : List (κ × α) → κ → Option α
  | [], _ => none
  | (k', v) :: t, k => if k' = k then some v else dictLookup t k

/-- Ordered-association-list assignment `d[k] = v`: overwrite in place when the
key is present (keeping its position, as CPython dicts do), append otherwise. -/
def dictInsert {κ α : Type} [DecidableEq κ] : List (κ × α) → κ → α → List (κ × α)
  | [], k, v => [(k, v)]
  | (k', v') :: t, k, v =>
    if k' = k then (k, v) :: t else (k', v') :: dictInsert t k v

/-- Stable insertion (after all entries of greater or equal length) used to
model Python's stable `sorted(keys, key=len, reverse=True)`. -/
def insertDesc (l : List (List Char)) (x : List Char) : List (List Char) :=
  match l with
  | [] => [x]
  | y :: ys => if y.length ≥ x.length then y :: insertDesc ys x else x :: y :: ys

/-- Stable sort by descending length: Python `sorted(keys, key=len, reverse=True)`. -/
def sortByLenDesc (l : List (List Char)) : List (List Char) := l.foldl insertDesc []

/-- `self.core_synonyms` from `SimpleSchemaNormalizer.__init__`. -/
def core_synonyms : List (List Char × List (List Char)) :=
  [("admin".data, ["admin".data, "adm".data]),
   ("user".data, ["user".data, "usr".data])]

/-- `self.env_synonyms` from `SimpleSchemaNormalizer.__init__` (the empty
string is listed as a variation of "prod"). -/
def env_synonyms : List (List Char × List (List Char)) :=
  [("prod".data, ["prod".data, "prd".data, "".data]),
   ("dev".data, ["dev".data, "develop".data]),
   ("uat".data, ["uat".data]),
   ("test".data, ["test".data, "tst".data])]

/-- `self.core_map`: variation → canonical core, in comprehension order. -/
def core_map : List (List Char × List Char) :=
  core_synonyms.flatMap (fun p => p.2.map (fun v => (v, p.1)))

/-- `self.env_map`: variation → canonical environment, in comprehension order. -/
def env_map : List (List Char × List Char) :=
  env_synonyms.flatMap (fun p => p.2.map (fun v => (v, p.1)))

/-- `self.sorted_core_keys = sorted(self.core_map.keys(), key=len, reverse=True)`. -/
def sorted_core_keys : List (List Char) := sortByLenDesc (core_map.map Prod.fst)

/-- `self.sorted_env_keys = sorted(self.env_map.keys(), key=len, reverse=True)`. -/
def sorted_env_keys : List (List Char) := sortByLenDesc (env_map.map Prod.fst)

/-- Inner loop of the part scans in `normalize`: first key (tried in the given
order) equal to `part`, mapped through the variation map. -/
def matchKey (keys : List (List Char)) (varMap : List (List Char × List Char))
    (part : List Char) : Option (List Char) :=
  match keys with
  | [] => none
  | k :: ks => if part = k then dictLookup varMap k else matchKey ks varMap part

/-- Left-to-right scan over `remaining_parts` (already-consumed parts are
`none`): on the first part equal to one of `keys`, return its canonical value
and mark that part as consumed (`remaining_parts[part_idx] = None`), then stop.
Used for both the core and the env part loops of `normalize`. -/
def partScan (keys : List (List Char)) (varMap : List (List Char × List Char)) :
    List (Option (List Char)) → Option (List Char) × List (Option (List Char))
  | [] => (none, [])
  | p :: rest =>
    match p with
    | some part =>
      match matchKey keys varMap part with
      | some canon => (some canon, none :: rest)
      | none =>
        let r := partScan keys varMap rest
        (r.1, p :: r.2)
    | none =>
      let r := partScan keys varMap rest
      (r.1, p :: r.2)

/-- Substring fallback of the core search: first key contained in the whole
lowercased string, mapped through the variation map. -/
def subScan (keys : List (List Char)) (varMap : List (List Char × List Char))
    (s : List Char) : Option (List Char) :=
  match keys with
  | [] => none
  | k :: ks => if containsSub s k then dictLookup varMap k else subScan ks varMap s

/-- Substring search of the env fallback, which skips the empty-string
variation (`if env_key == "": continue`). -/
def envSubScan (keys : List (List Char)) (varMap : List (List Char × List Char))
    (s : List Char) : Option (List Char) :=
  match keys with
  | [] => none
  | k :: ks =>
    if k = [] then envSubScan ks varMap s
    else if containsSub s k then dictLookup varMap k else envSubScan ks varMap s

/-- The core-detection pipeline of `SimpleSchemaNormalizer.normalize` applied
to the lowercased input: exact part match first, then substring containment
fallback. -/
def foundCoreOf (s_lower : List Char) : Option (List Char) :=
  let parts := splitDelims s_lower
  let remaining_parts : List (Option (List Char)) := parts.map some
  let core0 := partScan sorted_core_keys core_map remaining_parts
  match core0.1 with
  | some c => some c
  | none => subScan sorted_core_keys core_map s_lower

/-- `SimpleSchemaNormalizer.normalize` over a character list. The environment
detection (`found_env`) is carried out exactly as in the source, although the
final output never consults it. -/
def normalizeL (schema_name : List Char) : List Char :=
  let s_lower := lowerL schema_name
  let parts := splitDelims s_lower
  let remaining_parts : List (Option (List Char)) := parts.map some
  let core0 := partScan sorted_core_keys core_map remaining_parts
  let env0 := partScan sorted_env_keys env_map core0.2
  let found_core : Option (List Char) :=
    match core0.1 with
    | some c => some c
    | none => subScan sorted_core_keys core_map s_lower
  let found_env : Option (List Char) :=
    match env0.1 with
    | some e => some e
    | none =>
      let search_string_for_env :=
        match found_core with
        | some c =>
          let temp_search := replaceAll c s_lower
          if temp_search ≠ [] then temp_search else s_lower
        | none => s_lower
      envSubScan sorted_env_keys env_map search_string_for_env
  match found_core with
  | some c => c ++ "_prod".data
  | none => cleanup s_lower

/-- `SimpleSchemaNormalizer.normalize` (the global
`schema_normalizer_instance.normalize`). -/
def normalize (schema_name : String) : String :=
  ⟨normalizeL schema_name.data⟩

/-- The graph state (`state.py`, `SchemaAnalysisState`).  Scores are
rationals (only 0.0 and 1.0 arise); both dicts are insertion-ordered
association lists. -/
structure SchemaAnalysisState where
  input_schema_list : List String
  all_db_schemas : List String
  current_input_schema_idx : Nat
  current_db_schema_idx : Nat
  canonical_forms : List (String × String)
  final_output : List (String × List (String × ℚ))
deriving DecidableEq, Repr

/-- The mocked candidate list hard-coded in `fetch_db_schemas_node`. -/
def mockDbSchemas : List String :=
  ["ADMPRD", "ADMDEV", "USER_PROD", "USER_UAT", "DEV_ADM", "ADMINPRD", "XYZ_TEST", "APP_V1"]

/-- `fetch_db_schemas_node`: overwrite `all_db_schemas` with the mocked list,
reset both cursor indices, and initialize an empty output row for the first
input schema when `input_schema_list` is non-empty (Python truthiness). -/
def fetch_db_schemas_node (state : SchemaAnalysisState) : SchemaAnalysisState :=
  let state := { state with
    all_db_schemas := mockDbSchemas
    current_input_schema_idx := 0
    current_db_schema_idx := 0 }
  match state.input_schema_list with
  | [] => state
  | first_input_schema :: _ =>
    { state with final_output := dictInsert state.final_output first_input_schema [] }

/-- `get_canonical_form_node`: read the pair at the cursor (unguarded Python
indexing, hence `Option`) and insert each identifier's canonical form into the
`canonical_forms` cache when absent. -/
def get_canonical_form_node (state : SchemaAnalysisState) : Option SchemaAnalysisState := do
  let input_schema_orig ← state.input_schema_list[state.current_input_schema_idx]?
  let db_schema_orig ← state.all_db_schemas[state.current_db_schema_idx]?
  let cf1 :=
    if (dictLookup state.canonical_forms input_schema_orig).isNone then
      dictInsert state.canonical_forms input_schema_orig (normalize input_schema_orig)
    else state.canonical_forms
  let cf2 :=
    if (dictLookup cf1 db_schema_orig).isNone then
      dictInsert cf1 db_schema_orig (normalize db_schema_orig)
    else cf1
  some { state with canonical_forms := cf2 }

/-- `compare_schemas_node`: look both canonical forms up in the cache
(unguarded Python `dict[...]` access, hence `Option`), score 1.0 on equality
else 0.0, create the current input's row if absent, and write the cell. -/
def compare_schemas_node (state : SchemaAnalysisState) : Option SchemaAnalysisState := do
  let input_schema_orig ← state.input_schema_list[state.current_input_schema_idx]?
  let db_schema_orig ← state.all_db_schemas[state.current_db_schema_idx]?
  let canonical_input ← dictLookup state.canonical_forms input_schema_orig
  let canonical_db ← dictLookup state.canonical_forms db_schema_orig
  let score : ℚ := if canonical_input = canonical_db then 1 else 0
  let fo :=
    if (dictLookup state.final_output input_schema_orig).isNone then
      dictInsert state.final_output input_schema_orig []
    else state.final_output
  let row ← dictLookup fo input_schema_orig
  some { state with final_output := dictInsert fo input_schema_orig (dictInsert row db_schema_orig score) }

/-- `advance_or_end_node`: increment the candidate cursor; on overflow move to
the next input schema, reset the candidate cursor, and (when the new input
index is still in bounds) initialize that input's empty output row. -/
def advance_or_end_node (state : SchemaAnalysisState) : SchemaAnalysisState :=
  let state := { state with current_db_schema_idx := state.current_db_schema_idx + 1 }
  if state.current_db_schema_idx ≥ state.all_db_schemas.length then
    let state := { state with
      current_input_schema_idx := state.current_input_schema_idx + 1
      current_db_schema_idx := 0 }
    if h : state.current_input_schema_idx < state.input_schema_list.length then
      let next_input_schema := state.input_schema_list[state.current_input_schema_idx]
      { state with final_output := dictInsert state.final_output next_input_schema [] }
    else state
  else state

/-- `should_continue_processing` (the conditional edge after
`advance_or_end`). -/
def should_continue_processing (state : SchemaAnalysisState) : String :=
  if state.current_input_schema_idx ≥ state.input_schema_list.length then
    "end_processing"
  else
    "continue_comparison"

/-- One pass through the linear chain
`get_canonical → compare → advance_or_end` of the compiled graph. -/
def cycleStep (state : SchemaAnalysisState) : Option SchemaAnalysisState :=
  match get_canonical_form_node state with
  | none => none
  | some st1 =>
    match compare_schemas_node st1 with
    | none => none
    | some st2 => some (advance_or_end_node st2)

/-- Outcome of running the graph loop: normal termination at the `END` node,
a Python runtime error (out-of-range index / missing key), or exhaustion of
the fuel bound (the model's stand-in for the langgraph recursion limit). -/
inductive DriverResult where
  | done : SchemaAnalysisState → DriverResult
  | err : DriverResult
  | fuelOut : DriverResult
deriving DecidableEq, Repr

/-- The loop of the compiled graph, entered at `get_canonical`, together with
the number of completed `NORMALIZE → COMPARE → ADVANCE` cycles.  Each
completed cycle is followed by exactly one `should_continue_processing`
decision, so the returned count is also the number of conditional-edge
decisions taken. -/
def runLoopN : Nat → SchemaAnalysisState → DriverResult × Nat
  | 0, _ => (DriverResult.fuelOut, 0)
  | fuel + 1, state =>
    match cycleStep state with
    | none => (DriverResult.err, 0)
    | some st' =>
      if should_continue_processing st' = "continue_comparison" then
        let r := runLoopN fuel st'
        (r.1, r.2 + 1)
      else (DriverResult.done st', 1)

/-- The whole compiled graph: entry point `fetch_db_schemas`, then the loop
(the edge `fetch_db_schemas → get_canonical` is unconditional). -/
def runDriver (fuel : Nat) (state : SchemaAnalysisState) : DriverResult × Nat :=
  runLoopN fuel (fetch_db_schemas_node state)

/-- The initial state constructed in `app.py`'s `__main__` block, for a given
input list. -/
def initial_state (input_schemas : List String) : SchemaAnalysisState :=
  { input_schema_list := input_schemas
    all_db_schemas := []
    current_input_schema_idx := 0
    current_db_schema_idx := 0
    canonical_forms := []
    final_output := [] }

/-- `initial_input_schemas` from `app.py`. -/
def initial_input_schemas : List String := ["ADMDEV", "USER_UAT", "NONEXISTENT_CORE"]

/-- Keys of an association list, in order. -/
def dictKeys {κ α : Type} (l : List (κ × α)) : List κ := l.map Prod.fst

/-- The conditional cache insertion performed (twice) by
`get_canonical_form_node`: insert `normalize k` under `k` when absent. -/
def cacheAdd (cf : List (String × String)) (k : String) : List (String × String) :=
  if (dictLookup cf k).isNone then dictInsert cf k (normalize k) else cf

/-- The canonical form the cache holds for `k` after `cacheAdd cf k`. -/
def cacheVal (cf : List (String × String)) (k : String) : String :=
  (dictLookup cf k).getD (normalize k)

/-- The output update performed by `compare_schemas_node`: create the row for
`i` if absent, then write score `s` into cell `(i, d)`. -/
def writeCell (fo : List (String × List (String × ℚ))) (i d : String) (s : ℚ) :
    List (String × List (String × ℚ)) :=
  let fo' := if (dictLookup fo i).isNone then dictInsert fo i [] else fo
  let row := (dictLookup fo' i).getD []
  dictInsert fo' i (dictInsert row d s)

/-- The score `compare_schemas_node` computes for a pair of identifiers whose
canonical forms are taken from a sound cache. -/
def scoreOf (x d : String) : ℚ := if normalize x = normalize d then 1 else 0

/-- The completed output row for input `x` against candidate list `D`. -/
def fullRow (D : List String) (x : String) : List (String × ℚ) :=
  D.map (fun d => (d, scoreOf x d))

/-- The completed comparison matrix for inputs `I` against candidates `D`. -/
def fullTable (I D : List String) : List (String × List (String × ℚ)) :=
  I.map (fun x => (x, fullRow D x))

/-- The partially filled row for input `x`: candidates `D[0..j-1]` scored. -/
def partRow (D : List String) (x : String) (j : Nat) : List (String × ℚ) :=
  (D.take j).map (fun d => (d, scoreOf x d))

/-- Every cache entry holds the canonical form of its key. -/
def cacheSound (st : SchemaAnalysisState) : Prop :=
  ∀ p ∈ st.canonical_forms, p.2 = normalize p.1

/-- Identifier `k` has a cached canonical form in `st`. -/
def cachedIn (st : SchemaAnalysisState) (k : String) : Prop :=
  (dictLookup st.canonical_forms k).isSome = true

/-- Every recorded cell holds the equality score of the canonical forms of its
row and column identifiers. -/
def outputSound (st : SchemaAnalysisState) : Prop :=
  ∀ p ∈ st.final_output, ∀ c ∈ p.2, c.2 = scoreOf p.1 c.1

/-- Loop invariant on the output mapping at cursor `(i, j)`: completed rows
for `I[0..i-1]`, and a partial row for `I[i]` covering `D[0..j-1]`. -/
def outputShape (I D : List String) (i j : Nat) (st : SchemaAnalysisState) : Prop :=
  ∃ h : i < I.length,
    st.final_output = fullTable (I.take i) D ++ [(I.get ⟨i, h⟩, partRow D (I.get ⟨i, h⟩) j)]

/-- Total number of recorded cells. -/
def cellCount (st : SchemaAnalysisState) : Nat :=
  (st.final_output.map (fun p => p.2.length)).sum

/-- Cell count through a driver result. -/
def resultCellCount (r : DriverResult × Nat) : Option Nat :=
  match r.1 with
  | DriverResult.done st => some (cellCount st)
  | _ => none

/-- Final output through a driver result. -/
def resultOutput (r : DriverResult × Nat) : Option (List (String × List (String × ℚ))) :=
  match r.1 with
  | DriverResult.done st => some st.final_output
  | _ => none

/-- `true` exactly when the run reached the terminal state. -/
def DriverResult.isDone : DriverResult → Bool
  | DriverResult.done _ => true
  | _ => false

/-- Cell lookup in the nested output mapping. -/
def cellLookup (st : SchemaAnalysisState) (i d : String) : Option ℚ :=
  match dictLookup st.final_output i with
  | none => none
  | some row => dictLookup row d

/-- Cell lookup through a driver result (`none` unless the run reached the
terminal state). -/
def resultCell (r : DriverResult × Nat) (i d : String) : Option ℚ :=
  match r.1 with
  | DriverResult.done st => cellLookup st i d
  | _ => none

/-! ### Association-list lemmas -/

section DictLemmas

variable {κ α : Type} [DecidableEq κ]

theorem dictLookup_insert_self (l : List (κ × α)) (k : κ) (v : α) :
    dictLookup (dictInsert l k v) k = some v := by
  induction l with
  | nil => simp [dictInsert, dictLookup]
  | cons p t ih =>
    by_cases h : p.1 = k
    · simp [dictInsert, h, dictLookup]
    · simp [dictInsert, h, dictLookup, ih]

theorem dictLookup_insert_ne (l : List (κ × α)) (k k' : κ) (v : α) (h : k' ≠ k) :
    dictLookup (dictInsert l k v) k' = dictLookup l k' := by
  have hne : ¬ k = k' := fun hh => h hh.symm
  induction l with
  | nil => simp [dictInsert, dictLookup, hne]
  | cons p t ih =>
    by_cases hp : p.1 = k
    · subst hp
      simp [dictInsert, dictLookup, hne]
    · simp [dictInsert, hp, dictLookup, ih]

theorem dictInsert_of_lookup_none (l : List (κ × α)) (k : κ) (v : α)
    (h : dictLookup l k = none) : dictInsert l k v = l ++ [(k, v)] := by
  induction l with
  | nil => simp [dictInsert]
  | cons p t ih =>
    by_cases hp : p.1 = k
    · simp [dictLookup, hp] at h
    · simp only [dictLookup, hp, if_false] at h
      simp [dictInsert, hp, ih h]

theorem dictLookup_eq_none_iff (l : List (κ × α)) (k : κ) :
    dictLookup l k = none ↔ k ∉ dictKeys l := by
  induction l with
  | nil => simp [dictLookup, dictKeys]
  | cons p t ih =>
    by_cases hp : p.1 = k
    · subst hp
      simp [dictLookup, dictKeys]
    · have hne : ¬ k = p.1 := fun hh => hp hh.symm
      simp [dictLookup, hp, dictKeys, ih, hne]

theorem mem_of_dictLookup (l : List (κ × α)) (k : κ) (v : α)
    (h : dictLookup l k = some v) : (k, v) ∈ l := by
  induction l with
  | nil => simp [dictLookup] at h
  | cons p t ih =>
    by_cases hp : p.1 = k
    · simp only [dictLookup, hp, if_true, Option.some_inj] at h
      subst h
      subst hp
      simp
    · simp only [dictLookup, hp, if_false] at h
      exact List.mem_cons_of_mem _ (ih h)

theorem mem_dictInsert (l : List (κ × α)) (k : κ) (v : α) (p : κ × α)
    (h : p ∈ dictInsert l k v) : p ∈ l ∨ p = (k, v) := by
  induction l with
  | nil => simp [dictInsert] at h; right; exact h
  | cons q t ih =>
    by_cases hq : q.1 = k
    · simp only [dictInsert, hq, if_true] at h
      rcases List.mem_cons.mp h with h | h
      · right; exact h
      · left; exact List.mem_cons_of_mem _ h
    · simp only [dictInsert, hq, if_false] at h
      rcases List.mem_cons.mp h with h | h
      · left; exact h ▸ List.mem_cons_self _ _
      · rcases ih h with h | h
        · left; exact List.mem_cons_of_mem _ h
        · right; exact h

theorem dictInsert_append_of_notin (A B : List (κ × α)) (k : κ) (v : α)
    (h : k ∉ dictKeys A) : dictInsert (A ++ B) k v = A ++ dictInsert B k v := by
  induction A with
  | nil => simp
  | cons p t ih =>
    simp only [dictKeys, List.map_cons, List.mem_cons] at h
    push_neg at h
    have hne : ¬ p.1 = k := fun hh => h.1 hh.symm
    simp only [List.cons_append, dictInsert, hne, if_false]
    rw [List.append_eq, ih h.2]

theorem dictLookup_append_of_notin (A B : List (κ × α)) (k : κ)
    (h : k ∉ dictKeys A) : dictLookup (A ++ B) k = dictLookup B k := by
  induction A with
  | nil => simp
  | cons p t ih =>
    simp only [dictKeys, List.map_cons, List.mem_cons] at h
    push_neg at h
    have hne : ¬ p.1 = k := fun hh => h.1 hh.symm
    simp only [List.cons_append, dictLookup, hne, if_false]
    exact ih h.2

theorem dictLookup_map_self (I : List κ) (f : κ → α) (k : κ) (h : k ∈ I) :
    dictLookup (I.map (fun x => (x, f x))) k = some (f k) := by
  induction I with
  | nil => simp at h
  | cons x t ih =>
    by_cases hx : x = k
    · subst hx
      simp [dictLookup]
    · rcases List.mem_cons.mp h with h | h
      · exact absurd h.symm hx
      · simp [dictLookup, hx, ih h]

theorem dictLookup_map_of_notin (I : List κ) (f : κ → α) (k : κ) (h : k ∉ I) :
    dictLookup (I.map (fun x => (x, f x))) k = none := by
  induction I with
  | nil => simp [dictLookup]
  | cons x t ih =>
    simp only [List.mem_cons] at h
    push_neg at h
    have hne : ¬ x = k := fun hh => h.1 hh.symm
    simp [dictLookup, hne, ih h.2]

theorem dictKeys_insert_of_lookup_none (l : List (κ × α)) (k : κ) (v : α)
    (h : dictLookup l k = none) :
    dictKeys (dictInsert l k v) = dictKeys l ++ [k] := by
  rw [dictInsert_of_lookup_none l k v h]
  simp [dictKeys]

end DictLemmas

/-! ### Cache-update lemmas -/

theorem cacheAdd_mono (cf : List (String × String)) (k k' : String) (v : String)
    (h : dictLookup cf k' = some v) : dictLookup (cacheAdd cf k) k' = some v := by
  unfold cacheAdd
  split
  · rename_i hn
    by_cases hk : k' = k
    · subst hk
      simp [h] at hn
    · rw [dictLookup_insert_ne _ _ _ _ hk]
      exact h
  · exact h

theorem cacheAdd_lookup_self (cf : List (String × String)) (k : String) :
    dictLookup (cacheAdd cf k) k = some (cacheVal cf k) := by
  unfold cacheAdd cacheVal
  cases h : dictLookup cf k with
  | none => simp [h, dictLookup_insert_self]
  | some v => simp [h]

theorem cacheAdd_sound (cf : List (String × String)) (k : String)
    (h : ∀ p ∈ cf, p.2 = normalize p.1) :
    ∀ p ∈ cacheAdd cf k, p.2 = normalize p.1 := by
  intro p hp
  unfold cacheAdd at hp
  split at hp
  · rcases mem_dictInsert _ _ _ _ hp with hm | hm
    · exact h p hm
    · subst hm
      rfl
  · exact h p hp

theorem cacheAdd_nodup (cf : List (String × String)) (k : String)
    (h : (dictKeys cf).Nodup) : (dictKeys (cacheAdd cf k)).Nodup := by
  unfold cacheAdd
  split
  · rename_i hn
    rw [Option.isNone_iff_eq_none] at hn
    rw [dictKeys_insert_of_lookup_none _ _ _ hn]
    have hk : k ∉ dictKeys cf := (dictLookup_eq_none_iff _ _).mp hn
    simp [List.nodup_append, h, hk]
  · exact h

theorem cacheAdd_cached_of (cf : List (String × String)) (k k' : String)
    (h : (dictLookup (cacheAdd cf k) k').isSome = true) :
    (dictLookup cf k').isSome = true ∨ k' = k := by
  by_cases hk : k' = k
  · right; exact hk
  · left
    unfold cacheAdd at h
    split at h
    · rwa [dictLookup_insert_ne _ _ _ _ hk] at h
    · exact h

theorem cacheVal_sound (cf : List (String × String)) (k : String)
    (h : ∀ p ∈ cf, p.2 = normalize p.1) : cacheVal cf k = normalize k := by
  unfold cacheVal
  cases hl : dictLookup cf k with
  | none => rfl
  | some v =>
    simp only [Option.getD_some]
    exact h (k, v) (mem_of_dictLookup _ _ _ hl)

/-! ### Node characterization lemmas -/

theorem get_canonical_eq (st : SchemaAnalysisState)
    (hi : st.current_input_schema_idx < st.input_schema_list.length)
    (hj : st.current_db_schema_idx < st.all_db_schemas.length) :
    get_canonical_form_node st = some { st with
      canonical_forms :=
        cacheAdd (cacheAdd st.canonical_forms
            (st.input_schema_list[st.current_input_schema_idx]))
          (st.all_db_schemas[st.current_db_schema_idx]) } := by
  unfold get_canonical_form_node
  rw [List.getElem?_eq_getElem hi, List.getElem?_eq_getElem hj]
  simp [Option.bind, cacheAdd]

theorem compare_eq (st : SchemaAnalysisState)
    (hi : st.current_input_schema_idx < st.input_schema_list.length)
    (hj : st.current_db_schema_idx < st.all_db_schemas.length)
    (ci cd : String)
    (hci : dictLookup st.canonical_forms (st.input_schema_list[st.current_input_schema_idx]) = some ci)
    (hcd : dictLookup st.canonical_forms (st.all_db_schemas[st.current_db_schema_idx]) = some cd) :
    compare_schemas_node st = some { st with
      final_output :=
        writeCell st.final_output (st.input_schema_list[st.current_input_schema_idx])
          (st.all_db_schemas[st.current_db_schema_idx]) (if ci = cd then 1 else 0) } := by
  unfold compare_schemas_node writeCell
  rw [List.getElem?_eq_getElem hi, List.getElem?_eq_getElem hj]
  cases hf : dictLookup st.final_output (st.input_schema_list[st.current_input_schema_idx]) with
  | none => simp [Option.bind, hf, hci, hcd, dictLookup_insert_self]
  | some row => simp [Option.bind, hf, hci, hcd]

/-! ### Shape lemmas for the output invariant -/

theorem not_mem_take_of_nodup {α : Type} {l : List α} (hnd : l.Nodup) {i : Nat}
    (h : i < l.length) : l[i] ∉ l.take i := by
  intro hm
  rw [List.mem_iff_getElem] at hm
  obtain ⟨i', hi', heq⟩ := hm
  have hlen : i' < i := by
    have := hi'
    simp only [List.length_take] at this
    omega
  rw [List.getElem_take] at heq
  have := (hnd.getElem_inj_iff).mp heq
  omega

theorem fullTable_take_succ (I D : List String) (i : Nat) (h : i < I.length) :
    fullTable (I.take (i + 1)) D = fullTable (I.take i) D ++ [(I[i], fullRow D (I[i]))] := by
  unfold fullTable
  rw [List.take_succ]
  rw [List.getElem?_eq_getElem h]
  rw [List.map_append]
  simp

theorem partRow_succ (D : List String) (x : String) (j : Nat) (h : j < D.length) :
    partRow D x (j + 1) = partRow D x j ++ [(D[j], scoreOf x (D[j]))] := by
  unfold partRow
  rw [List.take_succ]
  rw [List.getElem?_eq_getElem h]
  rw [List.map_append]
  simp

theorem partRow_full (D : List String) (x : String) :
    partRow D x D.length = fullRow D x := by
  unfold partRow fullRow
  rw [List.take_of_length_le (le_refl _)]

theorem dictKeys_fullTable (I D : List String) : dictKeys (fullTable I D) = I := by
  unfold dictKeys fullTable
  rw [List.map_map]
  exact List.map_id I

theorem dictKeys_partRow (D : List String) (x : String) (j : Nat) :
    dictKeys (partRow D x j) = D.take j := by
  unfold dictKeys partRow
  rw [List.map_map]
  exact List.map_id (D.take j)

theorem writeCell_shape (I D : List String) (i j : Nat)
    (fo : List (String × List (String × ℚ)))
    (hndI : I.Nodup) (hndD : D.Nodup) (hi : i < I.length) (hj : j < D.length)
    (hshape : fo = fullTable (I.take i) D ++ [(I[i], partRow D (I[i]) j)]) :
    writeCell fo (I[i]) (D[j]) (scoreOf (I[i]) (D[j])) =
      fullTable (I.take i) D ++ [(I[i], partRow D (I[i]) (j + 1))] := by
  have hnotin : (I[i]) ∉ dictKeys (fullTable (I.take i) D) := by
    rw [dictKeys_fullTable]
    exact not_mem_take_of_nodup hndI hi
  have hlf : dictLookup fo (I[i]) = some (partRow D (I[i]) j) := by
    rw [hshape, dictLookup_append_of_notin _ _ _ hnotin]
    simp [dictLookup]
  have hrowlookup : dictLookup (partRow D (I[i]) j) (D[j]) = none := by
    rw [dictLookup_eq_none_iff, dictKeys_partRow]
    exact not_mem_take_of_nodup hndD hj
  unfold writeCell
  simp only [hlf, Option.isNone_some, Bool.false_eq_true, if_false, Option.getD_some]
  rw [dictInsert_of_lookup_none _ _ _ hrowlookup, ← partRow_succ D _ j hj,
    hshape, dictInsert_append_of_notin _ _ _ _ hnotin]
  simp [dictInsert]

theorem shape_roll_next (I D : List String) (i : Nat)
    (fo : List (String × List (String × ℚ)))
    (hndI : I.Nodup) (hi : i + 1 < I.length)
    (hshape : fo = fullTable (I.take i) D ++ [(I[i], fullRow D (I[i]))]) :
    dictInsert fo (I[i + 1]) [] =
      fullTable (I.take (i + 1)) D ++ [(I[i + 1], partRow D (I[i + 1]) 0)] := by
  have hi' : i < I.length := by omega
  have hnotin : (I[i + 1]) ∉ dictKeys (fullTable (I.take (i + 1)) D) := by
    rw [dictKeys_fullTable]
    exact not_mem_take_of_nodup hndI hi
  rw [hshape, ← fullTable_take_succ I D i hi',
    dictInsert_of_lookup_none _ _ _ ((dictLookup_eq_none_iff _ _).mpr hnotin)]
  rfl

theorem advance_eq_mid (st : SchemaAnalysisState)
    (hj : st.current_db_schema_idx + 1 < st.all_db_schemas.length) :
    advance_or_end_node st = { st with current_db_schema_idx := st.current_db_schema_idx + 1 } := by
  unfold advance_or_end_node
  have h : ¬ st.current_db_schema_idx + 1 ≥ st.all_db_schemas.length := by omega
  simp [h]

theorem advance_eq_roll_next (st : SchemaAnalysisState)
    (hj : st.current_db_schema_idx + 1 ≥ st.all_db_schemas.length)
    (hi : st.current_input_schema_idx + 1 < st.input_schema_list.length) :
    advance_or_end_node st = { st with
      current_input_schema_idx := st.current_input_schema_idx + 1
      current_db_schema_idx := 0
      final_output :=
        dictInsert st.final_output (st.input_schema_list[st.current_input_schema_idx + 1]) [] } := by
  unfold advance_or_end_node
  simp [hj, hi]

theorem advance_eq_roll_end (st : SchemaAnalysisState)
    (hj : st.current_db_schema_idx + 1 ≥ st.all_db_schemas.length)
    (hi : ¬ st.current_input_schema_idx + 1 < st.input_schema_list.length) :
    advance_or_end_node st = { st with
      current_input_schema_idx := st.current_input_schema_idx + 1
      current_db_schema_idx := 0 } := by
  unfold advance_or_end_node
  simp [hj, hi]

/-- Full characterization of one loop cycle at a valid cursor position. -/
theorem cycleStep_eq (st : SchemaAnalysisState)
    (hi : st.current_input_schema_idx < st.input_schema_list.length)
    (hj : st.current_db_schema_idx < st.all_db_schemas.length) :
    cycleStep st = some (advance_or_end_node { st with
      canonical_forms :=
        cacheAdd (cacheAdd st.canonical_forms
            (st.input_schema_list[st.current_input_schema_idx]))
          (st.all_db_schemas[st.current_db_schema_idx])
      final_output := writeCell st.final_output
        (st.input_schema_list[st.current_input_schema_idx])
        (st.all_db_schemas[st.current_db_schema_idx])
        (if cacheVal st.canonical_forms (st.input_schema_list[st.current_input_schema_idx]) =
            cacheVal (cacheAdd st.canonical_forms (st.input_schema_list[st.current_input_schema_idx]))
              (st.all_db_schemas[st.current_db_schema_idx])
         then 1 else 0) }) := by
  have hg := get_canonical_eq st hi hj
  have hci : dictLookup
      (cacheAdd (cacheAdd st.canonical_forms
          (st.input_schema_list[st.current_input_schema_idx]))
        (st.all_db_schemas[st.current_db_schema_idx]))
      (st.input_schema_list[st.current_input_schema_idx]) =
      some (cacheVal st.canonical_forms (st.input_schema_list[st.current_input_schema_idx])) :=
    cacheAdd_mono _ _ _ _ (cacheAdd_lookup_self _ _)
  have hcd : dictLookup
      (cacheAdd (cacheAdd st.canonical_forms
          (st.input_schema_list[st.current_input_schema_idx]))
        (st.all_db_schemas[st.current_db_schema_idx]))
      (st.all_db_schemas[st.current_db_schema_idx]) =
      some (cacheVal (cacheAdd st.canonical_forms
          (st.input_schema_list[st.current_input_schema_idx]))
        (st.all_db_schemas[st.current_db_schema_idx])) :=
    cacheAdd_lookup_self _ _
  have hc := compare_eq { st with
      canonical_forms :=
        cacheAdd (cacheAdd st.canonical_forms
            (st.input_schema_list[st.current_input_schema_idx]))
          (st.all_db_schemas[st.current_db_schema_idx]) } hi hj _ _ hci hcd
  unfold cycleStep
  rw [hg]
  simp only [hc]

/-! ### Component-level restatements, for the loop induction -/

theorem cycleStep_comp (I D : List String) (i j : Nat)
    (cf : List (String × String)) (fo : List (String × List (String × ℚ)))
    (hi : i < I.length) (hj : j < D.length) :
    cycleStep ⟨I, D, i, j, cf, fo⟩ = some (advance_or_end_node
      ⟨I, D, i, j, cacheAdd (cacheAdd cf (I[i])) (D[j]),
        writeCell fo (I[i]) (D[j])
          (if cacheVal cf (I[i]) = cacheVal (cacheAdd cf (I[i])) (D[j]) then 1 else 0)⟩) :=
  cycleStep_eq ⟨I, D, i, j, cf, fo⟩ hi hj

theorem advance_comp_mid (I D : List String) (i j : Nat)
    (cf : List (String × String)) (fo : List (String × List (String × ℚ)))
    (hj : j + 1 < D.length) :
    advance_or_end_node ⟨I, D, i, j, cf, fo⟩ = ⟨I, D, i, j + 1, cf, fo⟩ :=
  advance_eq_mid ⟨I, D, i, j, cf, fo⟩ hj

theorem advance_comp_roll_next (I D : List String) (i j : Nat)
    (cf : List (String × String)) (fo : List (String × List (String × ℚ)))
    (hj : j + 1 ≥ D.length) (hi : i + 1 < I.length) :
    advance_or_end_node ⟨I, D, i, j, cf, fo⟩ =
      ⟨I, D, i + 1, 0, cf, dictInsert fo (I[i + 1]) []⟩ :=
  advance_eq_roll_next ⟨I, D, i, j, cf, fo⟩ hj hi

theorem advance_comp_roll_end (I D : List String) (i j : Nat)
    (cf : List (String × String)) (fo : List (String × List (String × ℚ)))
    (hj : j + 1 ≥ D.length) (hi : ¬ i + 1 < I.length) :
    advance_or_end_node ⟨I, D, i, j, cf, fo⟩ = ⟨I, D, i + 1, 0, cf, fo⟩ :=
  advance_eq_roll_end ⟨I, D, i, j, cf, fo⟩ hj hi

theorem should_continue_comp_true (I D : List String) (i j : Nat)
    (cf : List (String × String)) (fo : List (String × List (String × ℚ)))
    (h : i < I.length) :
    should_continue_processing ⟨I, D, i, j, cf, fo⟩ = "continue_comparison" := by
  unfold should_continue_processing
  dsimp only
  rw [if_neg]
  omega

theorem should_continue_comp_false (I D : List String) (i j : Nat)
    (cf : List (String × String)) (fo : List (String × List (String × ℚ)))
    (h : i ≥ I.length) :
    should_continue_processing ⟨I, D, i, j, cf, fo⟩ = "end_processing" := by
  unfold should_continue_processing
  dsimp only
  rw [if_pos]
  exact h

theorem runLoopN_succ_continue (f : Nat) (st st₃ : SchemaAnalysisState)
    (hc : cycleStep st = some st₃)
    (hcont : should_continue_processing st₃ = "continue_comparison") :
    runLoopN (f + 1) st = ((runLoopN f st₃).1, (runLoopN f st₃).2 + 1) := by
  simp only [runLoopN]
  rw [hc]
  simp [hcont]

theorem runLoopN_succ_end (f : Nat) (st st₃ : SchemaAnalysisState)
    (hc : cycleStep st = some st₃)
    (hend : should_continue_processing st₃ = "end_processing") :
    runLoopN (f + 1) st = (DriverResult.done st₃, 1) := by
  simp only [runLoopN]
  rw [hc]
  simp [hend]

/-- Main loop theorem: entered at a valid cursor `(i, j)` with enough fuel,
the loop terminates normally after exactly `(|I| - i)·|D| - j` cycles, with the
cursor one past the last input; the cache grows monotonically, stays sound and
duplicate-free, only ever holds identifiers of the two lists, and ends up
covering all remaining identifiers; under duplicate-free lists and the row
invariant, the final output is the complete comparison matrix. -/
theorem runLoopN_done (fuel : Nat) :
    ∀ (I D : List String) (i j : Nat) (cf : List (String × String))
      (fo : List (String × List (String × ℚ)))
      (hilt : i < I.length) (hjlt : j < D.length),
      (I.length - i) * D.length - j ≤ fuel →
      ∃ st' : SchemaAnalysisState,
        runLoopN fuel ⟨I, D, i, j, cf, fo⟩ =
          (DriverResult.done st', (I.length - i) * D.length - j) ∧
        st'.input_schema_list = I ∧
        st'.all_db_schemas = D ∧
        st'.current_input_schema_idx = I.length ∧
        st'.current_db_schema_idx = 0 ∧
        (∀ k v, dictLookup cf k = some v → dictLookup st'.canonical_forms k = some v) ∧
        ((∀ p ∈ cf, p.2 = normalize p.1) → ∀ p ∈ st'.canonical_forms, p.2 = normalize p.1) ∧
        ((dictKeys cf).Nodup → (dictKeys st'.canonical_forms).Nodup) ∧
        (∀ k, (dictLookup st'.canonical_forms k).isSome = true →
          (dictLookup cf k).isSome = true ∨ k ∈ I ∨ k ∈ D) ∧
        (∀ x ∈ I.drop i, (dictLookup st'.canonical_forms x).isSome = true) ∧
        (∀ d ∈ D.drop j, (dictLookup st'.canonical_forms d).isSome = true) ∧
        (I.Nodup → D.Nodup → (∀ p ∈ cf, p.2 = normalize p.1) →
          fo = fullTable (I.take i) D ++ [(I[i], partRow D (I[i]) j)] →
          st'.final_output = fullTable I D) := by
  induction fuel with
  | zero =>
    intro I D i j cf fo hilt hjlt hfuel
    exfalso
    have hmulm : D.length ≤ (I.length - i) * D.length := by
      have h2 : 1 ≤ I.length - i := by omega
      calc D.length = 1 * D.length := (Nat.one_mul _).symm
        _ ≤ (I.length - i) * D.length := Nat.mul_le_mul_right _ h2
    omega
  | succ f ih =>
    intro I D i j cf fo hilt hjlt hfuel
    have hmulm : D.length ≤ (I.length - i) * D.length := by
      have h2 : 1 ≤ I.length - i := by omega
      calc D.length = 1 * D.length := (Nat.one_mul _).symm
        _ ≤ (I.length - i) * D.length := Nat.mul_le_mul_right _ h2
    have hcyc := cycleStep_comp I D i j cf fo hilt hjlt
    set cf2 := cacheAdd (cacheAdd cf (I[i])) (D[j]) with hcf2
    set s := (if cacheVal cf (I[i]) = cacheVal (cacheAdd cf (I[i])) (D[j])
        then (1 : ℚ) else 0) with hs
    set wc := writeCell fo (I[i]) (D[j]) s with hwc
    have hcached_inp : (dictLookup cf2 (I[i])).isSome = true := by
      rw [hcf2, cacheAdd_mono _ _ _ _ (cacheAdd_lookup_self cf (I[i]))]
      rfl
    have hcached_db : (dictLookup cf2 (D[j])).isSome = true := by
      rw [hcf2, cacheAdd_lookup_self]
      rfl
    have hmono2 : ∀ k v, dictLookup cf k = some v → dictLookup cf2 k = some v := by
      intro k v hkv
      rw [hcf2]
      exact cacheAdd_mono _ _ _ _ (cacheAdd_mono _ _ _ _ hkv)
    have hsound2 : (∀ p ∈ cf, p.2 = normalize p.1) → ∀ p ∈ cf2, p.2 = normalize p.1 := by
      intro h
      rw [hcf2]
      exact cacheAdd_sound _ _ (cacheAdd_sound _ _ h)
    have hnodup2 : (dictKeys cf).Nodup → (dictKeys cf2).Nodup := by
      intro h
      rw [hcf2]
      exact cacheAdd_nodup _ _ (cacheAdd_nodup _ _ h)
    have hclos2 : ∀ k, (dictLookup cf2 k).isSome = true →
        (dictLookup cf k).isSome = true ∨ k ∈ I ∨ k ∈ D := by
      intro k hk
      rw [hcf2] at hk
      rcases cacheAdd_cached_of _ _ _ hk with h' | h'
      · rcases cacheAdd_cached_of _ _ _ h' with h'' | h''
        · left; exact h''
        · right; left; exact h'' ▸ List.getElem_mem hilt
      · right; right; exact h' ▸ List.getElem_mem hjlt
    have hsval : (∀ p ∈ cf, p.2 = normalize p.1) → s = scoreOf (I[i]) (D[j]) := by
      intro hcfsound
      rw [hs, cacheVal_sound cf _ hcfsound,
        cacheVal_sound _ _ (cacheAdd_sound _ _ hcfsound)]
      rfl
    by_cases hmid : j + 1 < D.length
    · -- advance within the current row
      rw [advance_comp_mid I D i j cf2 wc hmid] at hcyc
      have hcont := should_continue_comp_true I D i (j + 1) cf2 wc hilt
      have hstep := runLoopN_succ_continue f _ _ hcyc hcont
      obtain ⟨st', hrun, hI', hD', hi', hj', hmono, hsound, hnodup, hclos, hdropI,
        hdropD, hout⟩ := ih I D i (j + 1) cf2 wc hilt hmid (by omega)
      have hcount : (I.length - i) * D.length - (j + 1) + 1 =
          (I.length - i) * D.length - j := by omega
      refine ⟨st', ?_, hI', hD', hi', hj', ?_, ?_, ?_, ?_, ?_, ?_, ?_⟩
      · rw [hstep, hrun]
        dsimp only
        rw [hcount]
      · intro k v hkv
        exact hmono k v (hmono2 k v hkv)
      · intro h
        exact hsound (hsound2 h)
      · intro h
        exact hnodup (hnodup2 h)
      · intro k hk
        rcases hclos k hk with h' | h' | h'
        · exact hclos2 k h'
        · right; left; exact h'
        · right; right; exact h'
      · exact hdropI
      · intro d hd
        rw [List.drop_eq_getElem_cons hjlt] at hd
        rcases List.mem_cons.mp hd with h' | h'
        · subst h'
          obtain ⟨v, hv⟩ := Option.isSome_iff_exists.mp hcached_db
          rw [hmono _ v hv]
          rfl
        · exact hdropD d h'
      · intro hndI hndD hcfsound hfo
        refine hout hndI hndD (hsound2 hcfsound) ?_
        rw [hwc, hsval hcfsound]
        exact writeCell_shape I D i j fo hndI hndD hilt hjlt hfo
    · -- end of the current row
      have hge : j + 1 ≥ D.length := by omega
      have hjm : j + 1 = D.length := by omega
      by_cases hnext : i + 1 < I.length
      · -- move to the next input schema
        rw [advance_comp_roll_next I D i j cf2 wc hge hnext] at hcyc
        have hcont := should_continue_comp_true I D (i + 1) 0 cf2
          (dictInsert wc (I[i + 1]) []) hnext
        have hstep := runLoopN_succ_continue f _ _ hcyc hcont
        have h0m : 0 < D.length := by omega
        have hsm : (I.length - i) * D.length =
            (I.length - (i + 1)) * D.length + D.length := by
          have h1 : I.length - i = (I.length - (i + 1)) + 1 := by omega
          rw [h1, Nat.succ_mul]
        obtain ⟨st', hrun, hI', hD', hi', hj', hmono, hsound, hnodup, hclos, hdropI,
          hdropD, hout⟩ := ih I D (i + 1) 0 cf2 (dictInsert wc (I[i + 1]) [])
            hnext h0m (by omega)
        have hcount : (I.length - (i + 1)) * D.length - 0 + 1 =
            (I.length - i) * D.length - j := by omega
        refine ⟨st', ?_, hI', hD', hi', hj', ?_, ?_, ?_, ?_, ?_, ?_, ?_⟩
        · rw [hstep, hrun]
          dsimp only
          rw [hcount]
        · intro k v hkv
          exact hmono k v (hmono2 k v hkv)
        · intro h
          exact hsound (hsound2 h)
        · intro h
          exact hnodup (hnodup2 h)
        · intro k hk
          rcases hclos k hk with h' | h' | h'
          · exact hclos2 k h'
          · right; left; exact h'
          · right; right; exact h'
        · intro x hx
          rw [List.drop_eq_getElem_cons hilt] at hx
          rcases List.mem_cons.mp hx with h' | h'
          · subst h'
            obtain ⟨v, hv⟩ := Option.isSome_iff_exists.mp hcached_inp
            rw [hmono _ v hv]
            rfl
          · exact hdropI x h'
        · intro d hd
          exact hdropD d (List.drop_subset j D hd)
        · intro hndI hndD hcfsound hfo
          refine hout hndI hndD (hsound2 hcfsound) ?_
          have hwcfull : wc = fullTable (I.take i) D ++ [(I[i], fullRow D (I[i]))] := by
            rw [hwc, hsval hcfsound,
              writeCell_shape I D i j fo hndI hndD hilt hjlt hfo, hjm, partRow_full]
          rw [shape_roll_next I D i wc hndI hnext hwcfull]
      · -- all input schemas processed: terminal
        rw [advance_comp_roll_end I D i j cf2 wc hge hnext] at hcyc
        have hend := should_continue_comp_false I D (i + 1) 0 cf2 wc (by omega)
        have hstep := runLoopN_succ_end f _ _ hcyc hend
        have hieq : i + 1 = I.length := by omega
        have hr1 : (I.length - i) * D.length - j = 1 := by
          have h1 : I.length - i = 1 := by omega
          rw [h1, Nat.one_mul]
          omega
        refine ⟨⟨I, D, i + 1, 0, cf2, wc⟩, ?_, rfl, rfl, ?_, rfl, ?_, ?_, ?_, ?_,
          ?_, ?_, ?_⟩
        · rw [hstep, hr1]
        · dsimp only
          omega
        · intro k v hkv
          exact hmono2 k v hkv
        · intro h
          exact hsound2 h
        · intro h
          exact hnodup2 h
        · intro k hk
          exact hclos2 k hk
        · intro x hx
          rw [List.drop_eq_getElem_cons hilt] at hx
          rcases List.mem_cons.mp hx with h' | h'
          · subst h'
            exact hcached_inp
          · rw [List.drop_eq_nil_of_le (by omega)] at h'
            simp at h'
        · intro d hd
          rw [List.drop_eq_getElem_cons hjlt] at hd
          rcases List.mem_cons.mp hd with h' | h'
          · subst h'
            exact hcached_db
          · rw [List.drop_eq_nil_of_le (by omega)] at h'
            simp at h'
        · intro hndI hndD hcfsound hfo
          dsimp only
          have hwcfull : wc = fullTable (I.take i) D ++ [(I[i], fullRow D (I[i]))] := by
            rw [hwc, hsval hcfsound,
              writeCell_shape I D i j fo hndI hndD hilt hjlt hfo, hjm, partRow_full]
          rw [hwcfull, ← fullTable_take_succ I D i hilt, hieq, List.take_length]

/-! ### Score soundness along any run (no duplicate-freeness needed) -/

/-- Combined soundness: sound cache and sound output cells. -/
def stateSound (st : SchemaAnalysisState) : Prop := cacheSound st ∧ outputSound st

theorem get_canonical_spec (st st₁ : SchemaAnalysisState)
    (h : get_canonical_form_node st = some st₁) :
    ∃ a b, st₁ = { st with canonical_forms := cacheAdd (cacheAdd st.canonical_forms a) b } := by
  unfold get_canonical_form_node at h
  cases ha : st.input_schema_list[st.current_input_schema_idx]? with
  | none => rw [ha] at h; simp [Option.bind] at h
  | some a =>
    cases hb : st.all_db_schemas[st.current_db_schema_idx]? with
    | none => rw [ha, hb] at h; simp [Option.bind] at h
    | some b =>
      rw [ha, hb] at h
      simp only [Option.bind_eq_bind, Option.some_bind, Option.some_inj] at h
      exact ⟨a, b, h.symm⟩

theorem compare_spec (st st₁ : SchemaAnalysisState)
    (h : compare_schemas_node st = some st₁) :
    ∃ a b ci cd,
      dictLookup st.canonical_forms a = some ci ∧
      dictLookup st.canonical_forms b = some cd ∧
      st₁ = { st with final_output := writeCell st.final_output a b (if ci = cd then 1 else 0) } := by
  unfold compare_schemas_node at h
  cases ha : st.input_schema_list[st.current_input_schema_idx]? with
  | none => rw [ha] at h; simp [Option.bind] at h
  | some a =>
    cases hb : st.all_db_schemas[st.current_db_schema_idx]? with
    | none => rw [ha, hb] at h; simp [Option.bind] at h
    | some b =>
      rw [ha, hb] at h
      simp only [Option.bind_eq_bind, Option.some_bind] at h
      cases hca : dictLookup st.canonical_forms a with
      | none => rw [hca] at h; simp at h
      | some ci =>
        rw [hca] at h
        simp only [Option.bind_eq_bind, Option.some_bind] at h
        cases hcb : dictLookup st.canonical_forms b with
        | none => rw [hcb] at h; simp at h
        | some cd =>
          rw [hcb] at h
          simp only [Option.bind_eq_bind, Option.some_bind] at h
          refine ⟨a, b, ci, cd, hca, hcb, ?_⟩
          cases hf : dictLookup st.final_output a with
          | none =>
            rw [hf] at h
            simp only [Option.isNone_none, if_true, Option.bind_eq_bind,
              Option.some_bind, dictLookup_insert_self, Option.some_inj] at h
            unfold writeCell
            simp only [hf, Option.isNone_none, if_true, dictLookup_insert_self,
              Option.getD_some]
            exact h.symm
          | some row =>
            rw [hf] at h
            simp only [hf, Option.isNone_some, Bool.false_eq_true, if_false,
              Option.bind_eq_bind, Option.some_bind, Option.some_inj] at h
            unfold writeCell
            simp only [hf, Option.isNone_some, Bool.false_eq_true, if_false,
              Option.getD_some]
            exact h.symm

theorem advance_cache (st : SchemaAnalysisState) :
    (advance_or_end_node st).canonical_forms = st.canonical_forms := by
  unfold advance_or_end_node
  dsimp only
  split
  · split
    · rfl
    · rfl
  · rfl

theorem advance_output_mem (st : SchemaAnalysisState) (p : String × List (String × ℚ))
    (h : p ∈ (advance_or_end_node st).final_output) :
    p ∈ st.final_output ∨ p.2 = [] := by
  unfold advance_or_end_node at h
  dsimp only at h
  split at h
  · split at h
    · rcases mem_dictInsert _ _ _ _ h with h' | h'
      · left; exact h'
      · right; rw [h']
    · left; exact h
  · left; exact h

theorem outputSound_writeCell (fo : List (String × List (String × ℚ)))
    (a b : String) (s : ℚ)
    (hsound : ∀ p ∈ fo, ∀ c ∈ p.2, c.2 = scoreOf p.1 c.1)
    (hs : s = scoreOf a b) :
    ∀ p ∈ writeCell fo a b s, ∀ c ∈ p.2, c.2 = scoreOf p.1 c.1 := by
  intro p hp c hc
  unfold writeCell at hp
  cases hf : dictLookup fo a with
  | none =>
    simp only [hf, Option.isNone_none, if_true, dictLookup_insert_self,
      Option.getD_some] at hp
    rcases mem_dictInsert _ _ _ _ hp with h' | h'
    · rcases mem_dictInsert _ _ _ _ h' with h'' | h''
      · exact hsound p h'' c hc
      · rw [h''] at hc
        simp at hc
    · rw [h'] at hc ⊢
      rcases mem_dictInsert _ _ _ _ hc with h'' | h''
      · simp [dictLookup] at h''
      · rw [h'']
        exact hs
  | some row =>
    simp only [hf, Option.isNone_some, Bool.false_eq_true, if_false,
      Option.getD_some] at hp
    rcases mem_dictInsert _ _ _ _ hp with h' | h'
    · exact hsound p h' c hc
    · rw [h'] at hc ⊢
      rcases mem_dictInsert _ _ _ _ hc with h'' | h''
      · exact hsound (a, row) (mem_of_dictLookup _ _ _ hf) c h''
      · rw [h'']
        exact hs

theorem stateSound_cycle (st st₃ : SchemaAnalysisState)
    (h : cycleStep st = some st₃) (hs : stateSound st) : stateSound st₃ := by
  unfold cycleStep at h
  cases hg : get_canonical_form_node st with
  | none => rw [hg] at h; simp at h
  | some st₁ =>
    rw [hg] at h
    dsimp only at h
    cases hcmp : compare_schemas_node st₁ with
    | none => rw [hcmp] at h; simp at h
    | some st₂ =>
      rw [hcmp] at h
      dsimp only at h
      simp only [Option.some_inj] at h
      obtain ⟨a, b, hst₁⟩ := get_canonical_spec st st₁ hg
      have hs₁ : stateSound st₁ := by
        subst hst₁
        exact ⟨cacheAdd_sound _ _ (cacheAdd_sound _ _ hs.1), hs.2⟩
      obtain ⟨a', b', ci, cd, hca, hcb, hst₂⟩ := compare_spec st₁ st₂ hcmp
      have hs₂ : stateSound st₂ := by
        subst hst₂
        refine ⟨hs₁.1, ?_⟩
        have hci : ci = normalize a' := hs₁.1 (a', ci) (mem_of_dictLookup _ _ _ hca)
        have hcd : cd = normalize b' := hs₁.1 (b', cd) (mem_of_dictLookup _ _ _ hcb)
        have hscore : (if ci = cd then (1 : ℚ) else 0) = scoreOf a' b' := by
          rw [hci, hcd]
          rfl
        exact outputSound_writeCell _ _ _ _ hs₁.2 hscore
      subst h
      constructor
      · intro p hp
        rw [advance_cache] at hp
        exact hs₂.1 p hp
      · intro p hp c hc
        rcases advance_output_mem st₂ p hp with h' | h'
        · exact hs₂.2 p h' c hc
        · rw [h'] at hc
          simp at hc

theorem runLoopN_sound (fuel : Nat) :
    ∀ (st st' : SchemaAnalysisState) (k : Nat), stateSound st →
      runLoopN fuel st = (DriverResult.done st', k) → stateSound st' := by
  induction fuel with
  | zero =>
    intro st st' k _ h
    simp [runLoopN] at h
  | succ f ih =>
    intro st st' k hs h
    simp only [runLoopN] at h
    cases hc : cycleStep st with
    | none => rw [hc] at h; simp at h
    | some st₃ =>
      rw [hc] at h
      dsimp only at h
      have hs₃ := stateSound_cycle st st₃ hc hs
      split at h
      · have h1 : (runLoopN f st₃).1 = DriverResult.done st' := by
          have := congrArg Prod.fst h
          exact this
        have h2 : runLoopN f st₃ = (DriverResult.done st', (runLoopN f st₃).2) := by
          rw [← h1]
        exact ih st₃ st' _ hs₃ h2
      · simp only [Prod.mk.injEq, DriverResult.done.injEq] at h
        rw [← h.1]
        exact hs₃

theorem cellLookup_sound (st : SchemaAnalysisState) (hs : outputSound st)
    (i d : String) (s : ℚ) (h : cellLookup st i d = some s) : s = scoreOf i d := by
  unfold cellLookup at h
  cases hf : dictLookup st.final_output i with
  | none => rw [hf] at h; simp at h
  | some row =>
    rw [hf] at h
    exact hs (i, row) (mem_of_dictLookup _ _ _ hf) (d, s) (mem_of_dictLookup _ _ _ h)

/-! ### Failure lemmas for degenerate inputs -/

theorem cycleStep_none_of_inputs_short (st : SchemaAnalysisState)
    (h : st.input_schema_list.length ≤ st.current_input_schema_idx) :
    cycleStep st = none := by
  unfold cycleStep get_canonical_form_node
  rw [List.getElem?_eq_none h]
  rfl

theorem cycleStep_none_of_db_short (st : SchemaAnalysisState)
    (h : st.all_db_schemas.length ≤ st.current_db_schema_idx) :
    cycleStep st = none := by
  unfold cycleStep get_canonical_form_node
  cases ha : st.input_schema_list[st.current_input_schema_idx]? with
  | none => rfl
  | some a =>
    rw [List.getElem?_eq_none h]
    rfl

theorem runLoopN_err (fuel : Nat) (st : SchemaAnalysisState) (hf : 1 ≤ fuel)
    (h : cycleStep st = none) : runLoopN fuel st = (DriverResult.err, 0) := by
  cases fuel with
  | zero => omega
  | succ f =>
    simp only [runLoopN]
    rw [h]

/-! ### Normalizer lemmas -/

/-- `normalize` is exactly core detection followed by the `_prod` suffix, with
the alphanumeric fallback; the env detection never influences the result. -/
theorem normalizeL_eq (s : List Char) :
    normalizeL s =
      match foundCoreOf (lowerL s) with
      | some c => c ++ "_prod".data
      | none => cleanup (lowerL s) := rfl

theorem toLowerChar_idem (c : Char) : toLowerChar (toLowerChar c) = toLowerChar c := by
  by_cases h1 : c = 'A'
  · subst h1; decide
  by_cases h2 : c = 'B'
  · subst h2; decide
  by_cases h3 : c = 'C'
  · subst h3; decide
  by_cases h4 : c = 'D'
  · subst h4; decide
  by_cases h5 : c = 'E'
  · subst h5; decide
  by_cases h6 : c = 'F'
  · subst h6; decide
  by_cases h7 : c = 'G'
  · subst h7; decide
  by_cases h8 : c = 'H'
  · subst h8; decide
  by_cases h9 : c = 'I'
  · subst h9; decide
  by_cases h10 : c = 'J'
  · subst h10; decide
  by_cases h11 : c = 'K'
  · subst h11; decide
  by_cases h12 : c = 'L'
  · subst h12; decide
  by_cases h13 : c = 'M'
  · subst h13; decide
  by_cases h14 : c = 'N'
  · subst h14; decide
  by_cases h15 : c = 'O'
  · subst h15; decide
  by_cases h16 : c = 'P'
  · subst h16; decide
  by_cases h17 : c = 'Q'
  · subst h17; decide
  by_cases h18 : c = 'R'
  · subst h18; decide
  by_cases h19 : c = 'S'
  · subst h19; decide
  by_cases h20 : c = 'T'
  · subst h20; decide
  by_cases h21 : c = 'U'
  · subst h21; decide
  by_cases h22 : c = 'V'
  · subst h22; decide
  by_cases h23 : c = 'W'
  · subst h23; decide
  by_cases h24 : c = 'X'
  · subst h24; decide
  by_cases h25 : c = 'Y'
  · subst h25; decide
  by_cases h26 : c = 'Z'
  · subst h26; decide
  have hc : toLowerChar c = c := by
    unfold toLowerChar
    split <;> first | rfl | contradiction
  rw [hc]
  exact hc

theorem lowerL_idem (s : List Char) : lowerL (lowerL s) = lowerL s := by
  unfold lowerL
  rw [List.map_map]
  exact List.map_congr_left (fun a _ => toLowerChar_idem a)

/-- Lowercasing first does not change the canonical form. -/
theorem normalizeL_lower (s : List Char) : normalizeL (lowerL s) = normalizeL s := by
  unfold normalizeL
  rw [lowerL_idem]

theorem matchKey_some (keys : List (List Char)) (varMap : List (List Char × List Char))
    (part c : List Char) (h : matchKey keys varMap part = some c) :
    ∃ k, dictLookup varMap k = some c := by
  induction keys with
  | nil => simp [matchKey] at h
  | cons k ks ih =>
    unfold matchKey at h
    split at h
    · exact ⟨k, h⟩
    · exact ih h

theorem partScan_some (keys : List (List Char)) (varMap : List (List Char × List Char)) :
    ∀ (l : List (Option (List Char))) (c : List Char),
      (partScan keys varMap l).1 = some c → ∃ k, dictLookup varMap k = some c := by
  intro l
  induction l with
  | nil => intro c h; simp [partScan] at h
  | cons p rest ih =>
    intro c h
    unfold partScan at h
    cases p with
    | none =>
      dsimp only at h
      exact ih c h
    | some part =>
      dsimp only at h
      cases hm : matchKey keys varMap part with
      | none =>
        rw [hm] at h
        dsimp only at h
        exact ih c h
      | some canon =>
        rw [hm] at h
        dsimp only at h
        rw [← h]
        exact matchKey_some keys varMap part canon hm

theorem subScan_some (varMap : List (List Char × List Char)) (s : List Char) :
    ∀ (keys : List (List Char)) (c : List Char),
      subScan keys varMap s = some c → ∃ k, dictLookup varMap k = some c := by
  intro keys
  induction keys with
  | nil => intro c h; simp [subScan] at h
  | cons k ks ih =>
    intro c h
    unfold subScan at h
    split at h
    · exact ⟨k, h⟩
    · exact ih c h

theorem core_map_values (k c : List Char) (h : dictLookup core_map k = some c) :
    c = "admin".data ∨ c = "user".data := by
  have he : core_map = [("admin".data, "admin".data), ("adm".data, "admin".data),
      ("user".data, "user".data), ("usr".data, "user".data)] := by decide
  rw [he] at h
  unfold dictLookup at h
  split at h
  · left; exact (Option.some_inj.mp h).symm
  · unfold dictLookup at h
    split at h
    · left; exact (Option.some_inj.mp h).symm
    · unfold dictLookup at h
      split at h
      · right; exact (Option.some_inj.mp h).symm
      · unfold dictLookup at h
        split at h
        · right; exact (Option.some_inj.mp h).symm
        · simp [dictLookup] at h

/-- Any detected core is one of the two canonical cores. -/
theorem foundCoreOf_values (s c : List Char) (h : foundCoreOf s = some c) :
    c = "admin".data ∨ c = "user".data := by
  have hfc : foundCoreOf s =
      match (partScan sorted_core_keys core_map ((splitDelims s).map some)).1 with
      | some c' => some c'
      | none => subScan sorted_core_keys core_map s := rfl
  rw [hfc] at h
  cases hp : (partScan sorted_core_keys core_map ((splitDelims s).map some)).1 with
  | some c' =>
    rw [hp] at h
    dsimp only at h
    obtain ⟨k, hk⟩ := partScan_some sorted_core_keys core_map _ c'  hp
    rw [← Option.some_inj.mp h]
    exact core_map_values k c' hk
  | none =>
    rw [hp] at h
    dsimp only at h
    obtain ⟨k, hk⟩ := subScan_some core_map s sorted_core_keys c h
    exact core_map_values k c hk

/-! ### Driver-level corollaries -/

theorem mockDbSchemas_nodup : mockDbSchemas.Nodup := by decide

theorem fetch_initial_cons (x : String) (t : List String) :
    fetch_db_schemas_node (initial_state (x :: t)) =
      ⟨x :: t, mockDbSchemas, 0, 0, [], [(x, [])]⟩ := rfl

/-- Complete behaviour of the compiled graph on a non-empty input list with
enough fuel: normal termination after `n·8` cycles, a sound and duplicate-free
cache whose keys are exactly the identifiers of the two lists, and (for
duplicate-free inputs) the full comparison matrix. -/
theorem runDriver_done (inputs : List String) (fuel : Nat) (hne : inputs ≠ [])
    (hf : inputs.length * 8 ≤ fuel) :
    ∃ st', runDriver fuel (initial_state inputs) =
        (DriverResult.done st', inputs.length * 8) ∧
      (∀ p ∈ st'.canonical_forms, p.2 = normalize p.1) ∧
      (dictKeys st'.canonical_forms).Nodup ∧
      (∀ x, (dictLookup st'.canonical_forms x).isSome = true ↔
        (x ∈ inputs ∨ x ∈ mockDbSchemas)) ∧
      (inputs.Nodup → st'.final_output = fullTable inputs mockDbSchemas) := by
  cases inputs with
  | nil => exact absurd rfl hne
  | cons x t =>
    have hfetch := fetch_initial_cons x t
    have hilt : 0 < (x :: t).length := by simp
    have hjlt : 0 < mockDbSchemas.length := by decide
    have hfuel : ((x :: t).length - 0) * mockDbSchemas.length - 0 ≤ fuel := hf
    obtain ⟨st', hrun, hI, hD, hi, hj, hmono, hsound, hnodup, hclos, hdropI,
      hdropD, hout⟩ := runLoopN_done fuel (x :: t) mockDbSchemas 0 0 [] [(x, [])]
        hilt hjlt hfuel
    refine ⟨st', ?_, ?_, ?_, ?_, ?_⟩
    · unfold runDriver
      rw [hfetch]
      exact hrun
    · exact hsound (by simp)
    · exact hnodup (by simp [dictKeys])
    · intro k
      constructor
      · intro hk
        rcases hclos k hk with h' | h' | h'
        · simp [dictLookup] at h'
        · left; exact h'
        · right; exact h'
      · intro hk
        rcases hk with h' | h'
        · exact hdropI k (by simpa using h')
        · exact hdropD k (by simpa using h')
    · intro hnd
      exact hout hnd mockDbSchemas_nodup (by simp) rfl

theorem stateSound_fetch_initial (inputs : List String) :
    stateSound (fetch_db_schemas_node (initial_state inputs)) := by
  cases inputs with
  | nil =>
    constructor
    · intro p hp
      simp [fetch_db_schemas_node, initial_state] at hp
    · intro p hp
      simp [fetch_db_schemas_node, initial_state] at hp
  | cons x t =>
    rw [fetch_initial_cons]
    constructor
    · intro p hp
      simp at hp
    · intro p hp
      simp only [List.mem_singleton] at hp
      subst hp
      intro c hc
      simp at hc

/-! ### Cell-level lemmas for the final matrix -/

theorem dictLookup_append_of_some {κ α : Type} [DecidableEq κ]
    (A B : List (κ × α)) (k : κ) (v : α) (h : dictLookup A k = some v) :
    dictLookup (A ++ B) k = some v := by
  induction A with
  | nil => simp [dictLookup] at h
  | cons p t ih =>
    by_cases hp : p.1 = k
    · simp only [dictLookup, hp, if_true] at h
      simp [List.cons_append, dictLookup, hp, h]
    · simp only [dictLookup, hp, if_false] at h
      simp [List.cons_append, dictLookup, hp, ih h]

theorem fullTable_cell (I D : List String) (x d : String) (hx : x ∈ I) (hd : d ∈ D) :
    cellLookup ⟨I, D, 0, 0, [], fullTable I D⟩ x d = some (scoreOf x d) := by
  unfold cellLookup
  dsimp only
  rw [show fullTable I D = I.map (fun y => (y, fullRow D y)) from rfl,
    dictLookup_map_self I _ x hx]
  dsimp only
  exact dictLookup_map_self D _ d hd

theorem dictLookup_map_inv {κ α : Type} [DecidableEq κ] (l : List κ) (f : κ → α)
    (k : κ) (v : α) (h : dictLookup (l.map (fun y => (y, f y))) k = some v) :
    v = f k ∧ k ∈ l := by
  induction l with
  | nil => simp [dictLookup] at h
  | cons y t ih =>
    simp only [List.map_cons, dictLookup] at h
    by_cases hy : y = k
    · rw [if_pos hy] at h
      subst hy
      exact ⟨(Option.some_inj.mp h).symm, List.mem_cons_self _ _⟩
    · rw [if_neg hy] at h
      obtain ⟨hv, hk⟩ := ih h
      exact ⟨hv, List.mem_cons_of_mem _ hk⟩

theorem mem_row_inv (D : List String) (x d : String) (s : ℚ)
    (h : (d, s) ∈ D.map (fun e => (e, scoreOf x e))) : d ∈ D ∧ s = scoreOf x d := by
  rw [List.mem_map] at h
  obtain ⟨e, he, heq⟩ := h
  obtain ⟨h1, h2⟩ := Prod.mk.injEq .. ▸ heq
  constructor
  · exact h1 ▸ he
  · rw [← h2, h1]

/-- Any cell recorded in a state satisfying the row invariant has the
deterministic score of its key pair, over identifiers of the two lists. -/
theorem shape_cell_inv (I D : List String) (i j : Nat)
    (fo : List (String × List (String × ℚ)))
    (hilt : i < I.length)
    (hfo : fo = fullTable (I.take i) D ++ [(I[i], partRow D (I[i]) j)])
    (x d : String) (s : ℚ)
    (h : (match dictLookup fo x with
          | none => none
          | some row => dictLookup row d) = some s) :
    s = scoreOf x d ∧ x ∈ I ∧ d ∈ D := by
  subst hfo
  cases hA : dictLookup (fullTable (I.take i) D) x with
  | some row =>
    rw [dictLookup_append_of_some _ _ _ _ hA] at h
    dsimp only at h
    obtain ⟨hrow, hxmem⟩ := dictLookup_map_inv (I.take i) (fullRow D) x row hA
    subst hrow
    obtain ⟨hd, hs⟩ := mem_row_inv D x d s (mem_of_dictLookup _ _ _ h)
    exact ⟨hs, List.mem_of_mem_take hxmem, hd⟩
  | none =>
    have hxA : x ∉ dictKeys (fullTable (I.take i) D) :=
      (dictLookup_eq_none_iff _ _).mp hA
    rw [dictLookup_append_of_notin _ _ _ hxA] at h
    by_cases hx : I[i] = x
    · subst hx
      simp only [dictLookup, if_true] at h
      obtain ⟨hd, hs⟩ := mem_row_inv (D.take j) (I[i]) d s (mem_of_dictLookup _ _ _ h)
      exact ⟨hs, List.getElem_mem hilt, List.mem_of_mem_take hd⟩
    · simp [dictLookup, hx] at h

theorem cellCount_fullTable (I D : List String) :
    ((fullTable I D).map (fun p => p.2.length)).sum = I.length * D.length := by
  induction I with
  | nil => simp [fullTable]
  | cons x t ih =>
    simp only [fullTable, List.map_cons, List.sum_cons, List.length_cons] at ih ⊢
    rw [ih]
    simp only [fullRow, List.length_map]
    rw [Nat.succ_mul, Nat.add_comm]

/-- The final state of the compiled graph run on the single input `"ADMDEV"`,
used to exhibit concrete terminating runs. -/
def admdevFinalState : SchemaAnalysisState :=
  { input_schema_list := ["ADMDEV"]
    all_db_schemas := mockDbSchemas
    current_input_schema_idx := 1
    current_db_schema_idx := 0
    canonical_forms := [("ADMDEV", "admin_prod"), ("ADMPRD", "admin_prod"),
      ("USER_PROD", "user_prod"), ("USER_UAT", "user_prod"), ("DEV_ADM", "admin_prod"),
      ("ADMINPRD", "admin_prod"), ("XYZ_TEST", "xyztest"), ("APP_V1", "appv1")]
    final_output := [("ADMDEV", [("ADMPRD", 1), ("ADMDEV", 1), ("USER_PROD", 0),
      ("USER_UAT", 0), ("DEV_ADM", 1), ("ADMINPRD", 1), ("XYZ_TEST", 0), ("APP_V1", 0)])] }

theorem runLoopN_admdev :
    runLoopN 8 (fetch_db_schemas_node (initial_state ["ADMDEV"])) =
      (DriverResult.done admdevFinalState, 8) := rfl

/-! ## Claims -/

/-- Claim C1: every score the driver records for a pair `(i, d)` equals 1.0
exactly when the canonical forms of `i` and `d` are string-equal and 0.0
otherwise — for any run of the loop from a sound state, hence for every run of
the compiled graph (whose post-fetch state is always sound); in the spec's
end-to-end example, `final_output["ADMDEV"]["ADMPRD"] = 1.0` and
`final_output["ADMDEV"]["USER_UAT"] = 0.0`. -/
theorem C1_pair_scores :
    (∀ (st st' : SchemaAnalysisState) (fuel k : Nat), stateSound st →
      runLoopN fuel st = (DriverResult.done st', k) →
      ∀ (i d : String) (s : ℚ), cellLookup st' i d = some s →
        s = (if normalize i = normalize d then 1 else 0)) ∧
    (∀ inputs : List String, stateSound (fetch_db_schemas_node (initial_state inputs))) ∧
    resultCell (runDriver 24 (initial_state initial_input_schemas)) "ADMDEV" "ADMPRD" =
      some 1 ∧
    resultCell (runDriver 24 (initial_state initial_input_schemas)) "ADMDEV" "USER_UAT" =
      some 0 := by
  refine ⟨?_, stateSound_fetch_initial, rfl, rfl⟩
  intro st st' fuel k hs hrun i d s hcell
  have hs' := runLoopN_sound fuel st st' k hs hrun
  exact cellLookup_sound st' hs'.2 i d s hcell

/-- Witness for C1 at a concrete run: the recorded score of the processed pair
`("ADMDEV", "ADMPRD")` is forced to the canonical-equality score. -/
theorem C1_pair_scores_witness :
    (1 : ℚ) = (if normalize "ADMDEV" = normalize "ADMPRD" then 1 else 0) :=
  C1_pair_scores.1 (fetch_db_schemas_node (initial_state ["ADMDEV"])) admdevFinalState
    8 8 (stateSound_fetch_initial ["ADMDEV"]) runLoopN_admdev "ADMDEV" "ADMPRD" 1 rfl

/-- Claim C2 as stated is false: with the duplicate input list
`["ADMDEV", "ADMDEV"]` (n = 2, m = 8) the terminated driver holds 8 cells, not
n·m = 16 — the second pass over the duplicate erases and rebuilds the same row
instead of adding a new one. -/
theorem C2_matrix_cex :
    resultCellCount (runDriver 16 (initial_state ["ADMDEV", "ADMDEV"])) = some 8 ∧
    resultCellCount (runDriver 16 (initial_state ["ADMDEV", "ADMDEV"])) ≠
      some (["ADMDEV", "ADMDEV"].length * mockDbSchemas.length) :=
  ⟨rfl, by decide⟩

/-- Claim C2, amended: for a duplicate-free input list the terminated driver
holds exactly one score per pair — n·m cells in total, each 0 or 1 (all cells
of the full table are 0 or 1) — and from any loop state satisfying the row
invariant, every already-written cell survives to the final state with the
same value (write-once). -/
theorem C2_matrix_amended :
    (∀ (inputs : List String) (fuel : Nat), inputs.Nodup → inputs ≠ [] →
      inputs.length * 8 ≤ fuel →
      resultOutput (runDriver fuel (initial_state inputs)) =
        some (fullTable inputs mockDbSchemas) ∧
      resultCellCount (runDriver fuel (initial_state inputs)) =
        some (inputs.length * 8)) ∧
    (∀ I D : List String, ∀ p ∈ fullTable I D, ∀ c ∈ p.2, c.2 = 0 ∨ c.2 = 1) ∧
    (∀ (I D : List String) (i j fuel k : Nat) (cf : List (String × String))
       (fo : List (String × List (String × ℚ))) (st' : SchemaAnalysisState),
      I.Nodup → D.Nodup → (∀ p ∈ cf, p.2 = normalize p.1) →
      ∀ (hilt : i < I.length), j < D.length →
      (I.length - i) * D.length - j ≤ fuel →
      fo = fullTable (I.take i) D ++ [(I[i], partRow D (I[i]) j)] →
      runLoopN fuel ⟨I, D, i, j, cf, fo⟩ = (DriverResult.done st', k) →
      ∀ (x d : String) (s : ℚ), cellLookup ⟨I, D, i, j, cf, fo⟩ x d = some s →
        cellLookup st' x d = some s) := by
  refine ⟨?_, ?_, ?_⟩
  · intro inputs fuel hnd hne hf
    obtain ⟨st', hrun, _, _, _, hout⟩ := runDriver_done inputs fuel hne hf
    rw [hrun]
    unfold resultOutput resultCellCount cellCount
    dsimp only
    rw [hout hnd]
    refine ⟨rfl, ?_⟩
    rw [cellCount_fullTable]
    rfl
  · intro I D p hp c hc
    unfold fullTable at hp
    rw [List.mem_map] at hp
    obtain ⟨x, _, rfl⟩ := hp
    unfold fullRow at hc
    rw [List.mem_map] at hc
    obtain ⟨e, _, rfl⟩ := hc
    unfold scoreOf
    by_cases hq : normalize x = normalize e
    · right; rw [if_pos hq]
    · left; rw [if_neg hq]
  · intro I D i j fuel k cf fo st' hndI hndD hcf hilt hjlt hfl hfo hrun x d s hcell
    obtain ⟨st'', hrun', _, _, _, _, _, _, _, _, _, _, hout⟩ :=
      runLoopN_done fuel I D i j cf fo hilt hjlt hfl
    rw [hrun'] at hrun
    have hst : st'' = st' := by
      simpa using congrArg Prod.fst hrun
    subst hst
    have hfin : st''.final_output = fullTable I D := hout hndI hndD hcf hfo
    obtain ⟨hs, hx, hd⟩ := shape_cell_inv I D i j fo hilt hfo x d s hcell
    unfold cellLookup
    rw [hfin, show fullTable I D = I.map (fun y => (y, fullRow D y)) from rfl,
      dictLookup_map_self I _ x hx]
    dsimp only
    rw [show fullRow D x = D.map (fun e => (e, scoreOf x e)) from rfl,
      dictLookup_map_self D _ d hd, hs]

/-- Witness for C2 at a concrete duplicate-free run: the single-input driver
produces exactly the full one-row table. -/
theorem C2_matrix_amended_witness :
    resultOutput (runDriver 8 (initial_state ["ADMDEV"])) =
      some (fullTable ["ADMDEV"] mockDbSchemas) :=
  (C2_matrix_amended.1 ["ADMDEV"] 8 (by decide) (by decide) (by decide)).1

/-- Claim C3 as stated is false: with an empty `input_schema_list` the driver
does not reach the terminal state with an empty output — the unconditional
edge from FETCH into NORMALIZE_PAIR makes the very first cycle fail with an
index error, at any fuel. -/
theorem C3_degenerate_cex :
    (runDriver 1 (initial_state [])).1 = DriverResult.err ∧
    (runDriver 1000 (initial_state [])).1 = DriverResult.err :=
  ⟨rfl, rfl⟩

/-- Claim C3, amended: with an empty `input_schema_list` the driver fails at
the first NORMALIZE_PAIR (index error) instead of terminating cleanly; a loop
state with an empty `all_db_schemas` likewise fails at NORMALIZE_PAIR rather
than skipping to the advance step — and that case is unreachable in the
compiled graph anyway, because FETCH always overwrites `all_db_schemas` with
the non-empty mocked list. -/
theorem C3_degenerate_amended :
    (∀ fuel : Nat, 1 ≤ fuel →
      runDriver fuel (initial_state []) = (DriverResult.err, 0)) ∧
    (∀ (st : SchemaAnalysisState) (fuel : Nat), 1 ≤ fuel → st.all_db_schemas = [] →
      runLoopN fuel st = (DriverResult.err, 0)) ∧
    (∀ st : SchemaAnalysisState,
      (fetch_db_schemas_node st).all_db_schemas = mockDbSchemas) ∧
    mockDbSchemas ≠ [] := by
  refine ⟨?_, ?_, ?_, by decide⟩
  · intro fuel hf
    unfold runDriver
    refine runLoopN_err fuel _ hf (cycleStep_none_of_inputs_short _ ?_)
    decide
  · intro st fuel hf hdb
    refine runLoopN_err fuel st hf (cycleStep_none_of_db_short st ?_)
    rw [hdb]
    exact Nat.zero_le _
  · intro st
    cases h : st.input_schema_list <;> simp [fetch_db_schemas_node, h]

/-- Witness for C3: the amended failure behaviour at concrete states. -/
theorem C3_degenerate_witness :
    runDriver 1 (initial_state []) = (DriverResult.err, 0) ∧
    runLoopN 1 ⟨["A"], [], 0, 0, [], []⟩ = (DriverResult.err, 0) :=
  ⟨C3_degenerate_amended.1 1 (le_refl 1),
    C3_degenerate_amended.2.1 ⟨["A"], [], 0, 0, [], []⟩ 1 (le_refl 1) rfl⟩

/-- Claim C4 as stated is false: on the single-input run (n = 1, the compiled
graph's m = 8) the driver completes after 8 NORMALIZE/COMPARE cycles, each
followed by exactly one advance decision — 8 decisions, not n + 1 = 2. -/
theorem C4_termination_cex :
    (runDriver 100 (initial_state ["ADMDEV"])).1.isDone = true ∧
    (runDriver 100 (initial_state ["ADMDEV"])).2 = 8 ∧
    (runDriver 100 (initial_state ["ADMDEV"])).2 ≠ ["ADMDEV"].length + 1 :=
  ⟨rfl, rfl, by decide⟩

/-- Claim C4, amended: for non-empty lists the loop always reaches the
terminal state in exactly n·m NORMALIZE/COMPARE cycles, each completed cycle
taking exactly one advance decision (so n·m decisions); the compiled driver on
a non-empty input list terminates in n·8 cycles; with an empty input list the
driver fails at the first NORMALIZE_PAIR instead of terminating. -/
theorem C4_termination_amended :
    (∀ (I D : List String) (cf : List (String × String))
       (fo : List (String × List (String × ℚ))) (fuel : Nat),
      I ≠ [] → D ≠ [] → I.length * D.length ≤ fuel →
      (runLoopN fuel ⟨I, D, 0, 0, cf, fo⟩).1.isDone = true ∧
      (runLoopN fuel ⟨I, D, 0, 0, cf, fo⟩).2 = I.length * D.length) ∧
    (∀ (inputs : List String) (fuel : Nat), inputs ≠ [] →
      inputs.length * 8 ≤ fuel →
      (runDriver fuel (initial_state inputs)).1.isDone = true ∧
      (runDriver fuel (initial_state inputs)).2 = inputs.length * 8) ∧
    (∀ fuel : Nat, 1 ≤ fuel →
      (runDriver fuel (initial_state [])).1 = DriverResult.err) := by
  refine ⟨?_, ?_, ?_⟩
  · intro I D cf fo fuel hI hD hf
    have hilt : 0 < I.length := List.length_pos.mpr hI
    have hjlt : 0 < D.length := List.length_pos.mpr hD
    obtain ⟨st', hrun, _⟩ := runLoopN_done fuel I D 0 0 cf fo hilt hjlt hf
    rw [hrun]
    exact ⟨rfl, rfl⟩
  · intro inputs fuel hne hf
    obtain ⟨st', hrun, _⟩ := runDriver_done inputs fuel hne hf
    rw [hrun]
    exact ⟨rfl, rfl⟩
  · intro fuel hf
    unfold runDriver
    rw [runLoopN_err fuel _ hf (cycleStep_none_of_inputs_short _ (by decide))]

/-- Witness for C4: the concrete single-input run terminates with exactly
1·8 cycles and decisions. -/
theorem C4_termination_witness :
    (runDriver 8 (initial_state ["ADMDEV"])).1.isDone = true ∧
    (runDriver 8 (initial_state ["ADMDEV"])).2 = ["ADMDEV"].length * 8 :=
  C4_termination_amended.2.1 ["ADMDEV"] 8 (by decide) (by decide)

/-- Claim C5: whenever the core-detection pipeline (exact part match, then
substring containment) recognizes a core `c` in the lowercased input,
`normalize` returns exactly `c ++ "_prod"`, whatever environment token was
seen; in particular ADMDEV, ADMPRD and ADM all normalize to `"admin_prod"`. -/
theorem C5_core_forces_prod :
    (∀ (s : String) (c : List Char), foundCoreOf (lowerL s.data) = some c →
      normalize s = ⟨c ++ "_prod".data⟩) ∧
    normalize "ADMDEV" = "admin_prod" ∧
    normalize "ADMPRD" = "admin_prod" ∧
    normalize "ADM" = "admin_prod" := by
  refine ⟨?_, rfl, rfl, rfl⟩
  intro s c h
  unfold normalize
  rw [normalizeL_eq, h]

/-- Witness for C5 at the concrete input "ADMDEV", whose detected core is
"admin". -/
theorem C5_core_forces_prod_witness :
    normalize "ADMDEV" = ⟨"admin".data ++ "_prod".data⟩ :=
  C5_core_forces_prod.1 "ADMDEV" "admin".data rfl

/-- Claim C6 as stated is false: inserting the delimiter '-' into "admin"
changes the result — `normalize "admin" = "admin_prod"` (exact part match) but
`normalize "ad-min" = "admin"` (no part matches, no substring matches, so the
fallback fires). -/
theorem C6_invariance_cex :
    normalize "admin" = "admin_prod" ∧
    normalize "ad-min" = "admin" ∧
    normalize "admin" ≠ normalize "ad-min" :=
  ⟨rfl, rfl, by decide⟩

/-- Claim C6, amended: `normalize` is case-insensitive — lowercasing the input
first never changes the result — and the spec's delimiter examples do agree
(`ADM_PRD`, `adm-prd`, `admprd` all normalize to `"admin_prod"`); but
delimiter insertion/removal does not preserve the result in general. -/
theorem C6_invariance_amended :
    (∀ s : String, normalize s = normalize ⟨lowerL s.data⟩) ∧
    normalize "ADM_PRD" = "admin_prod" ∧
    normalize "adm-prd" = "admin_prod" ∧
    normalize "admprd" = "admin_prod" := by
  refine ⟨?_, rfl, rfl, rfl⟩
  intro s
  show (⟨normalizeL s.data⟩ : String) = ⟨normalizeL (lowerL s.data)⟩
  rw [normalizeL_lower]

/-- Claim C7: when no core synonym is found, `normalize` returns the fallback:
the lowercased input with every character outside `[a-z0-9]` removed; in
particular `normalize "XYZ_TEST" = "xyztest"`. -/
theorem C7_fallback :
    (∀ s : String, foundCoreOf (lowerL s.data) = none →
      normalize s = ⟨cleanup (lowerL s.data)⟩) ∧
    normalize "XYZ_TEST" = "xyztest" := by
  refine ⟨?_, rfl⟩
  intro s h
  unfold normalize
  rw [normalizeL_eq, h]

/-- Witness for C7 at the concrete input "XYZ_TEST", where no core synonym
matches. -/
theorem C7_fallback_witness :
    normalize "XYZ_TEST" = ⟨cleanup (lowerL "XYZ_TEST".data)⟩ :=
  C7_fallback.1 "XYZ_TEST" rfl

/-- Claim C8: `normalize` is a pure total function — it is deterministic, and
for every non-empty input it returns a canonical form without failing: either
`"<core>_prod"` for one of the two canonical cores, or the alphanumeric
fallback of the lowercased input. -/
theorem C8_total_deterministic :
    ∀ s : String, s ≠ "" →
      normalize s = normalize s ∧
      ((∃ core : String, (core = "admin" ∨ core = "user") ∧
          normalize s = core ++ "_prod") ∨
        normalize s = ⟨cleanup (lowerL s.data)⟩) := by
  intro s hs
  refine ⟨rfl, ?_⟩
  cases h : foundCoreOf (lowerL s.data) with
  | none =>
    right
    unfold normalize
    rw [normalizeL_eq, h]
  | some c =>
    left
    rcases foundCoreOf_values _ _ h with hc | hc
    · refine ⟨"admin", Or.inl rfl, ?_⟩
      unfold normalize
      rw [normalizeL_eq, h, hc]
      rfl
    · refine ⟨"user", Or.inr rfl, ?_⟩
      unfold normalize
      rw [normalizeL_eq, h, hc]
      rfl

/-- Witness for C8 at the concrete non-empty input "ADMDEV". -/
theorem C8_total_deterministic_witness :
    normalize "ADMDEV" = normalize "ADMDEV" ∧
    ((∃ core : String, (core = "admin" ∨ core = "user") ∧
        normalize "ADMDEV" = core ++ "_prod") ∨
      normalize "ADMDEV" = ⟨cleanup (lowerL "ADMDEV".data)⟩) :=
  C8_total_deterministic "ADMDEV" (by decide)

/-- Claim C9: the canonical-form cache is only ever extended — FETCH, COMPARE
and ADVANCE never touch it, NORMALIZE preserves every existing entry, keeps
the keys duplicate-free and every value equal to `normalize` of its key; and
a terminated driver run on a non-empty input list ends with the cache keys
being exactly the identifiers of `input_schema_list` and `all_db_schemas`. -/
theorem C9_cache_invariants :
    (∀ st : SchemaAnalysisState,
      (fetch_db_schemas_node st).canonical_forms = st.canonical_forms) ∧
    (∀ st st₁ : SchemaAnalysisState, get_canonical_form_node st = some st₁ →
      (∀ k v, dictLookup st.canonical_forms k = some v →
        dictLookup st₁.canonical_forms k = some v) ∧
      ((∀ p ∈ st.canonical_forms, p.2 = normalize p.1) →
        ∀ p ∈ st₁.canonical_forms, p.2 = normalize p.1) ∧
      ((dictKeys st.canonical_forms).Nodup →
        (dictKeys st₁.canonical_forms).Nodup)) ∧
    (∀ st st₁ : SchemaAnalysisState, compare_schemas_node st = some st₁ →
      st₁.canonical_forms = st.canonical_forms) ∧
    (∀ st : SchemaAnalysisState,
      (advance_or_end_node st).canonical_forms = st.canonical_forms) ∧
    (∀ (inputs : List String) (fuel k : Nat) (st' : SchemaAnalysisState),
      inputs ≠ [] → inputs.length * 8 ≤ fuel →
      runDriver fuel (initial_state inputs) = (DriverResult.done st', k) →
      (∀ p ∈ st'.canonical_forms, p.2 = normalize p.1) ∧
      (dictKeys st'.canonical_forms).Nodup ∧
      (∀ x, (dictLookup st'.canonical_forms x).isSome = true ↔
        (x ∈ inputs ∨ x ∈ mockDbSchemas))) := by
  refine ⟨?_, ?_, ?_, advance_cache, ?_⟩
  · intro st
    cases h : st.input_schema_list <;> simp [fetch_db_schemas_node, h]
  · intro st st₁ h
    obtain ⟨a, b, rfl⟩ := get_canonical_spec st st₁ h
    refine ⟨?_, ?_, ?_⟩
    · intro k v hkv
      exact cacheAdd_mono _ _ _ _ (cacheAdd_mono _ _ _ _ hkv)
    · intro hsnd
      exact cacheAdd_sound _ _ (cacheAdd_sound _ _ hsnd)
    · intro hnd
      exact cacheAdd_nodup _ _ (cacheAdd_nodup _ _ hnd)
  · intro st st₁ h
    obtain ⟨a, b, ci, cd, _, _, rfl⟩ := compare_spec st st₁ h
    rfl
  · intro inputs fuel k st' hne hf hrun
    obtain ⟨st'', hrun', hsnd, hnd, hiff, _⟩ := runDriver_done inputs fuel hne hf
    rw [hrun'] at hrun
    have hst : st'' = st' := by
      simpa using congrArg Prod.fst hrun
    subst hst
    exact ⟨hsnd, hnd, hiff⟩

/-- Witness for C9: the cache of the concrete terminated single-input run has
duplicate-free keys. -/
theorem C9_cache_invariants_witness :
    (dictKeys admdevFinalState.canonical_forms).Nodup :=
  (C9_cache_invariants.2.2.2.2 ["ADMDEV"] 8 8 admdevFinalState (by decide)
    (by decide) runLoopN_admdev).2.1

/-- Claim C10: `fetch_db_schemas_node` unconditionally overwrites
`all_db_schemas` with the fixed eight-element mocked list — discarding any
caller-supplied candidates — resets both cursor indices to 0, and initializes
an empty result row for the first input schema exactly when
`input_schema_list` is non-empty; so every run of the compiled graph compares
against these eight candidates. -/
theorem C10_fetch_overwrites :
    ∀ st : SchemaAnalysisState,
      (fetch_db_schemas_node st).all_db_schemas =
        ["ADMPRD", "ADMDEV", "USER_PROD", "USER_UAT", "DEV_ADM", "ADMINPRD",
          "XYZ_TEST", "APP_V1"] ∧
      (fetch_db_schemas_node st).current_input_schema_idx = 0 ∧
      (fetch_db_schemas_node st).current_db_schema_idx = 0 ∧
      (fetch_db_schemas_node st).input_schema_list = st.input_schema_list ∧
      (fetch_db_schemas_node st).canonical_forms = st.canonical_forms ∧
      (fetch_db_schemas_node st).final_output =
        (match st.input_schema_list with
          | [] => st.final_output
          | first :: _ => dictInsert st.final_output first []) := by
  intro st
  cases h : st.input_schema_list with
  | nil =>
    refine ⟨?_, ?_, ?_, ?_, ?_, ?_⟩ <;> simp [fetch_db_schemas_node, h, mockDbSchemas]
  | cons x t =>
    refine ⟨?_, ?_, ?_, ?_, ?_, ?_⟩ <;> simp [fetch_db_schemas_node, h, mockDbSchemas]

end Scratchpad
